import Mathlib

/-!
Verification of the attribute-list module (`src/attrs.rs`) of cosmic-text.

The module assigns style attributes to half-open byte ranges of a line of
text.  We embed the data model (`Color`, `Attrs`, `AttrsOwned`, `FamilyOwned`)
and the operations of `AttrsList` (`add_span`, `get_span`, `clear_spans`,
`split_off`, `spans`) as executable Lean definitions and prove the spec's
properties about them.

Machine integers are modelled as `Nat` (with explicit masking where the code
masks); `f32` is modelled by its IEEE-754 bit pattern, which is exactly the
information `f32::total_cmp` and `f32::to_bits` consume.

The underlying interval map is the external crate `rangemap::RangeMap`, whose
source is not part of this repository; it is modelled from the spec's
description of the Interval Map component (section 4.1).
-/

namespace CosmicText

/-- A half-open range `[start, stop)` of byte offsets.  Models Rust's
`Range<usize>`; the field `stop` models Rust's `end` (a Lean keyword). -/
structure Range where
  start : Nat
  stop : Nat
deriving DecidableEq, Repr

/-- Text color: a packed 32-bit value, `Color(pub u32)`. -/
structure Color where
  val : Nat
deriving DecidableEq, Repr

/-- `Color::rgba`: `((a as u32) << 24) | ((r as u32) << 16) | ((g as u32) << 8) | (b as u32)`.
The arguments are `u8` values, i.e. naturals below 256. -/
def Color.rgba (r g b a : Nat) : Color :=
  ⟨(a <<< 24) ||| (r <<< 16) ||| (g <<< 8) ||| b⟩

/-- `Color::rgb`: alpha defaults to `0xFF`. -/
def Color.rgb (r g b : Nat) : Color :=
  Color.rgba r g b 0xFF

/-- `Color::r`: `((self.0 & 0x00_FF_00_00) >> 16) as u8`. -/
def Color.r (c : Color) : Nat := (c.val &&& 0x00FF0000) >>> 16

/-- `Color::g`: `((self.0 & 0x00_00_FF_00) >> 8) as u8`. -/
def Color.g (c : Color) : Nat := (c.val &&& 0x0000FF00) >>> 8

/-- `Color::b`: `(self.0 & 0x00_00_00_FF) as u8`. -/
def Color.b (c : Color) : Nat := c.val &&& 0x000000FF

/-- `Color::a`: `((self.0 & 0xFF_00_00_00) >> 24) as u8`. -/
def Color.a (c : Color) : Nat := (c.val &&& 0xFF000000) >>> 24

/-- An `f32` value, modelled by its IEEE-754 bit pattern.  All operations the
module performs on its `scaling` field (`to_bits`, `total_cmp`) are functions
of the bit pattern alone, so this model is exact — including NaN payloads. -/
structure F32 where
  bits : Fin (2 ^ 32)
deriving DecidableEq, Repr

/-- `f32::to_bits`. -/
def F32.to_bits (x : F32) : Nat := x.bits.val

/-- The signed-magnitude key used by `f32::total_cmp` from the Rust standard
library: reinterpret the bits as `i32`, then xor the low 31 bits with the
sign extension shifted right by one (`left ^= (((left >> 31) as u32) >> 1) as i32`). -/
def F32.totalKey (x : F32) : Int :=
  if x.bits.val < 2 ^ 31 then (x.bits.val : Int)
  else ((x.bits.val ^^^ (2 ^ 31 - 1) : Nat) : Int) - 2 ^ 32

/-- `f32::total_cmp` (IEEE 754 totalOrder): compare the adjusted keys. -/
def F32.total_cmp (x y : F32) : Ordering := compare x.totalKey y.totalKey

/-- `Family` from fontdb: a generic font family or a name.  The borrowed
name (`&str`) is modelled as a `String`; only its content matters. -/
inductive Family where
  | Name (s : String)
  | Serif
  | SansSerif
  | Cursive
  | Fantasy
  | Monospace
deriving DecidableEq, Repr

/-- An owned version of `Family`. -/
inductive FamilyOwned where
  | Name (s : String)
  | Serif
  | SansSerif
  | Cursive
  | Fantasy
  | Monospace
deriving DecidableEq, Repr

/-- `FamilyOwned::new`: clone the name into owned storage. -/
def FamilyOwned.new : Family → FamilyOwned
  | Family.Name name => FamilyOwned.Name name
  | Family.Serif => FamilyOwned.Serif
  | Family.SansSerif => FamilyOwned.SansSerif
  | Family.Cursive => FamilyOwned.Cursive
  | Family.Fantasy => FamilyOwned.Fantasy
  | Family.Monospace => FamilyOwned.Monospace

/-- `FamilyOwned::as_family`: borrow back a `Family`. -/
def FamilyOwned.as_family : FamilyOwned → Family
  | FamilyOwned.Name name => Family.Name name
  | FamilyOwned.Serif => Family.Serif
  | FamilyOwned.SansSerif => Family.SansSerif
  | FamilyOwned.Cursive => Family.Cursive
  | FamilyOwned.Fantasy => Family.Fantasy
  | FamilyOwned.Monospace => Family.Monospace

/-- `Stretch` from fontdb (nine variants, compared by equality only here). -/
inductive Stretch where
  | UltraCondensed | ExtraCondensed | Condensed | SemiCondensed | Normal
  | SemiExpanded | Expanded | ExtraExpanded | UltraExpanded
deriving DecidableEq, Repr

/-- `Style` from fontdb. -/
inductive Style where
  | Normal | Italic | Oblique
deriving DecidableEq, Repr

/-- `Weight` from fontdb: `Weight(pub u16)`. -/
structure Weight where
  val : Nat
deriving DecidableEq, Repr

/-- Text attributes, `Attrs<'a>`. -/
structure Attrs where
  color_opt : Option Color
  family : Family
  stretch : Stretch
  style : Style
  weight : Weight
  scaling : F32
  metadata : Nat
deriving DecidableEq, Repr

/-- `impl PartialEq for Attrs`: all fields by structural equality except
`scaling`, which is compared with `f32::total_cmp(..).is_eq()`. -/
def Attrs.eqb (x y : Attrs) : Bool :=
  x.color_opt == y.color_opt
    && x.family == y.family
    && x.stretch == y.stretch
    && x.style == y.style
    && x.weight == y.weight
    && (F32.total_cmp x.scaling y.scaling).isEq
    && x.metadata == y.metadata

/-- `impl Hash for Attrs`: the exact data fed to the hasher, in order; the
hash of a value is a function of this tuple (with `scaling` contributing via
`to_bits`), so equal tuples give identical hashes under every hasher. -/
def Attrs.hashInput (x : Attrs) :
    Option Color × Family × Stretch × Style × Weight × Nat × Nat :=
  (x.color_opt, x.family, x.stretch, x.style, x.weight, x.scaling.to_bits, x.metadata)

/-- `Attrs::compatible`: whether two attribute sets can be shaped together. -/
def Attrs.compatible (x y : Attrs) : Bool :=
  x.family == y.family
    && x.stretch == y.stretch
    && x.style == y.style
    && x.weight == y.weight
    && (F32.total_cmp x.scaling y.scaling).isEq

/-- An owned version of `Attrs`. -/
structure AttrsOwned where
  color_opt : Option Color
  family_owned : FamilyOwned
  stretch : Stretch
  style : Style
  weight : Weight
  scaling : F32
  metadata : Nat
deriving DecidableEq, Repr

/-- `AttrsOwned::new`. -/
def AttrsOwned.new (attrs : Attrs) : AttrsOwned where
  color_opt := attrs.color_opt
  family_owned := FamilyOwned.new attrs.family
  stretch := attrs.stretch
  style := attrs.style
  weight := attrs.weight
  scaling := attrs.scaling
  metadata := attrs.metadata

/-- `AttrsOwned::as_attrs`. -/
def AttrsOwned.as_attrs (o : AttrsOwned) : Attrs where
  color_opt := o.color_opt
  family := o.family_owned.as_family
  stretch := o.stretch
  style := o.style
  weight := o.weight
  scaling := o.scaling
  metadata := o.metadata

/-- `impl PartialEq for AttrsOwned`. -/
def AttrsOwned.eqb (x y : AttrsOwned) : Bool :=
  x.color_opt == y.color_opt
    && x.family_owned == y.family_owned
    && x.stretch == y.stretch
    && x.style == y.style
    && x.weight == y.weight
    && (F32.total_cmp x.scaling y.scaling).isEq
    && x.metadata == y.metadata

/-- `impl Hash for AttrsOwned`: the data fed to the hasher, in order. -/
def AttrsOwned.hashInput (x : AttrsOwned) :
    Option Color × FamilyOwned × Stretch × Style × Weight × Nat × Nat :=
  (x.color_opt, x.family_owned, x.stretch, x.style, x.weight, x.scaling.to_bits, x.metadata)

/-! ## The interval map

`AttrsList` stores its spans in `rangemap::RangeMap<usize, AttrsOwned>`, an
external crate whose source is not part of this repository.  We model it per
the spec's Interval Map component (section 4.1): an ordered list of disjoint
non-empty half-open ranges bound to values, ascending by start. -/

/-- One entry of the interval map. -/
abbrev Entry (V : Type) := Range × V

/-- Does the half-open range `r` contain the point `p`? -/
def Range.containsP (r : Range) (p : Nat) : Bool :=
  r.start ≤ p && p < r.stop

/-- Do two half-open ranges overlap (share at least one point)? -/
def Range.overlaps (r k : Range) : Bool :=
  !(k.stop ≤ r.start || r.stop ≤ k.start)

namespace RangeMap

variable {V : Type}

/-- Modelled from the spec: trimming one existing entry against a newly
inserted range `r` — "a left remainder `[old.start, range.start)` and/or a
right remainder `[range.end, old.end)` are kept if non-empty; the portion
strictly inside `range` is discarded"; an entry not overlapping `r` is kept. -/
def trimEntry (r : Range) (e : Entry V) : List (Entry V) :=
  if !(Range.overlaps r e.1) then [e]
  else
    (if e.1.start < r.start then [(⟨e.1.start, r.start⟩, e.2)] else []) ++
    (if r.stop < e.1.stop then [(⟨r.stop, e.1.stop⟩, e.2)] else [])

/-- Insert an entry into a list sorted ascending by range start, keeping the
order (new entry goes after entries with strictly smaller start). -/
def insertSorted (e : Entry V) : List (Entry V) → List (Entry V)
  | [] => [e]
  | x :: xs => if e.1.start < x.1.start then e :: x :: xs else x :: insertSorted e xs

/-- Modelled from the spec: Interval Map `insert(range, value)` — "any
existing entries that overlap `range` are trimmed to their non-overlapping
remainder …; the new `(range, value)` is then inserted as its own entry.
Afterward the map contains no two entries with overlapping ranges, and ranges
are ordered by start." -/
def insert (m : List (Entry V)) (r : Range) (v : V) : List (Entry V) :=
  insertSorted (r, v) (m.flatMap (trimEntry r))

/-- Modelled from the spec: `get_key_value(point)` — the entry whose range
contains `point` together with its exact boundaries, if any. -/
def getKeyValue (m : List (Entry V)) (p : Nat) : Option (Entry V) :=
  m.find? (fun e => Range.containsP e.1 p)

/-- Modelled from the spec: `get(point)` — the value of the entry whose range
contains `point`, else none. -/
def get (m : List (Entry V)) (p : Nat) : Option V :=
  (getKeyValue m p).map (·.2)

/-- Modelled from the spec: `remove(exact_range)` — "deletes the entry whose
key equals `exact_range` exactly". -/
def remove (m : List (Entry V)) (k : Range) : List (Entry V) :=
  m.filter (fun e => e.1 ≠ k)

/-- Well-formedness invariant of the map: entries are pairwise ordered and
disjoint (each ends no later than the next starts) and every range is
non-empty.  `Pairwise` over the strict order also yields sortedness. -/
def WF (m : List (Entry V)) : Prop :=
  m.Pairwise (fun a b => a.1.stop ≤ b.1.start) ∧ ∀ e ∈ m, e.1.start < e.1.stop

instance (m : List (Entry V)) [DecidableEq V] : Decidable (WF m) := by
  unfold WF
  infer_instance

end RangeMap

/-! ## The attribute list -/

/-- List of text attributes to apply to a line: a default value plus the
interval map of override spans. -/
structure AttrsList where
  defaults : AttrsOwned
  spans : List (Entry AttrsOwned)
deriving DecidableEq, Repr

namespace AttrsList

/-- `AttrsList::new`: empty span set with the given defaults. -/
def new (defaults : Attrs) : AttrsList :=
  ⟨AttrsOwned.new defaults, []⟩

/-- `AttrsList::defaults`. -/
def defaultsAttrs (l : AttrsList) : Attrs :=
  l.defaults.as_attrs

/-- `AttrsList::spans`: the ordered snapshot of current override spans. -/
def spansList (l : AttrsList) : List (Entry AttrsOwned) :=
  l.spans

/-- `AttrsList::clear_spans`. -/
def clear_spans (l : AttrsList) : AttrsList :=
  { l with spans := [] }

/-- `AttrsList::add_span`: no-op on an empty range, otherwise interval-map
insert of the owned attributes. -/
def add_span (l : AttrsList) (range : Range) (attrs : Attrs) : AttrsList :=
  if range.start = range.stop then l
  else { l with spans := RangeMap.insert l.spans range (AttrsOwned.new attrs) }

/-- `AttrsList::get_span`: the covering span's attributes, else the defaults. -/
def get_span (l : AttrsList) (index : Nat) : Attrs :=
  ((RangeMap.get l.spans index).map AttrsOwned.as_attrs).getD l.defaults.as_attrs

/-- The loop of `AttrsList::split_off` over the collected `removes` list.
State: `s` is `self.spans`, `n` is `new.spans`.  Each step looks up
`get_key_value(key.start)`; the source `.expect("attrs span not found")`
(a panic) is modelled by returning `none`. -/
def splitLoop (index : Nat) :
    List (Range × Bool) → List (Entry AttrsOwned) → List (Entry AttrsOwned) →
    Option (List (Entry AttrsOwned) × List (Entry AttrsOwned))
  | [], s, n => some (s, n)
  | (key, resize) :: rest, s, n =>
    match RangeMap.getKeyValue s key.start with
    | none => none
    | some (range, attrs) =>
      let s1 := RangeMap.remove s key
      if resize then
        splitLoop index rest
          (RangeMap.insert s1 ⟨range.start, index⟩ attrs)
          (RangeMap.insert n ⟨0, range.stop - index⟩ attrs)
      else
        splitLoop index rest s1
          (RangeMap.insert n ⟨range.start - index, range.stop - index⟩ attrs)

/-- The `removes` list collected by the first loop of `split_off`: spans
entirely below `index` are skipped; spans starting at or after `index` are
tagged `false`; straddling spans are tagged `true` (resize). -/
def splitRemoves (index : Nat) (spans : List (Entry AttrsOwned)) :
    List (Range × Bool) :=
  spans.filterMap (fun e =>
    if e.1.stop ≤ index then none
    else if e.1.start ≥ index then some (e.1, false)
    else some (e.1, true))

/-- `AttrsList::split_off`: splits at byte offset `index`; returns
`(self_after, new)`.  `none` models the `expect` panic path. -/
def split_off (l : AttrsList) (index : Nat) : Option (AttrsList × AttrsList) :=
  match splitLoop index (splitRemoves index l.spans) l.spans [] with
  | none => none
  | some (s, n) =>
    some ({ l with spans := s }, ⟨AttrsOwned.new l.defaults.as_attrs, n⟩)

end AttrsList

/-- The states of `AttrsList` reachable through its public mutating
operations (`new`, `add_span`, `clear_spans`, both results of `split_off`).
An `add_span` call whose range runs backwards (`start > end`) passes the
empty-range guard but violates the interval map's documented insert
precondition and aborts the original program, so it produces no state. -/
inductive Reachable : AttrsList → Prop
  | new (d : Attrs) : Reachable (AttrsList.new d)
  | add_span {l : AttrsList} (r : Range) (v : Attrs) (hr : r.start ≤ r.stop) :
      Reachable l → Reachable (l.add_span r v)
  | clear_spans {l : AttrsList} : Reachable l → Reachable l.clear_spans
  | split_left {l a b : AttrsList} {i : Nat} :
      Reachable l → l.split_off i = some (a, b) → Reachable a
  | split_right {l a b : AttrsList} {i : Nat} :
      Reachable l → l.split_off i = some (a, b) → Reachable b

/-- Shift an entry down by `index` (used to state what `split_off` moves into
the new list). -/
def shiftEntry (index : Nat) (e : Entry AttrsOwned) : Entry AttrsOwned :=
  (⟨e.1.start - index, e.1.stop - index⟩, e.2)

/-- A sequence of `add_span` calls applied to a fresh `AttrsList`. -/
def applyAdds (d : Attrs) (ops : List (Range × Attrs)) : AttrsList :=
  ops.foldl (fun l e => l.add_span e.1 e.2) (AttrsList.new d)

/-- Stated from the spec for comparison with the implementation: the value of
the most recently inserted span whose range contains `i`, if any (scan the
call sequence from the latest call backwards). -/
def specLastWrite (i : Nat) (ops : List (Range × Attrs)) : Option Attrs :=
  (ops.reverse.find? (fun e => Range.containsP e.1 i)).map (·.2)

/-! ## Helper lemmas: the f32 total order -/

/-- The `total_cmp` key is injective on bit patterns. -/
theorem F32.totalKey_inj (x y : F32) : x.totalKey = y.totalKey ↔ x = y := by
  obtain ⟨⟨xb, hx⟩⟩ := x
  obtain ⟨⟨yb, hy⟩⟩ := y
  simp only [F32.totalKey, F32.mk.injEq, Fin.mk.injEq]
  have hxor : ∀ z : Nat, z < 2 ^ 32 → z ^^^ (2 ^ 31 - 1) < 2 ^ 32 := fun z hz =>
    Nat.xor_lt_two_pow hz (by norm_num)
  by_cases h1 : xb < 2 ^ 31 <;> by_cases h2 : yb < 2 ^ 31 <;>
    simp only [h1, h2, if_true, if_false, if_pos, if_neg, not_false_iff]
  · constructor
    · intro h; exact_mod_cast h
    · intro h; exact_mod_cast h
  · constructor
    · intro h
      have := hxor yb hy
      omega
    · intro h; omega
  · constructor
    · intro h
      have := hxor xb hx
      omega
    · intro h; omega
  · constructor
    · intro h
      have hx' : xb ^^^ (2 ^ 31 - 1) = yb ^^^ (2 ^ 31 - 1) := by omega
      have : xb ^^^ (2 ^ 31 - 1) ^^^ (2 ^ 31 - 1) = yb ^^^ (2 ^ 31 - 1) ^^^ (2 ^ 31 - 1) := by
        rw [hx']
      simpa [Nat.xor_cancel_right] using this
    · intro h; subst h; rfl

/-- `total_cmp` compares equal exactly on identical bit patterns. -/
theorem F32.total_cmp_isEq (x y : F32) : (F32.total_cmp x y).isEq = true ↔ x = y := by
  rw [← F32.totalKey_inj]
  unfold F32.total_cmp
  constructor
  · intro h
    refine compare_eq_iff_eq.mp ?_
    cases hc : compare x.totalKey y.totalKey <;> rw [hc] at h <;>
      first | rfl | exact absurd h (by decide)
  · intro h
    rw [compare_eq_iff_eq.mpr h]
    rfl

/-- Bit-pattern equality is equality of the modelled `f32`. -/
theorem F32.to_bits_inj (x y : F32) : x.to_bits = y.to_bits ↔ x = y := by
  obtain ⟨⟨xb, hx⟩⟩ := x
  obtain ⟨⟨yb, hy⟩⟩ := y
  simp [F32.to_bits]

/-! ## Helper lemmas: bit arithmetic for `Color` -/

/-- Or-ing a left-shifted value with a small value is addition. -/
theorem shiftLeft_or_eq_add (z y k : Nat) (hy : y < 2 ^ k) :
    (z <<< k) ||| y = z * 2 ^ k + y := by
  apply Nat.eq_of_testBit_eq
  intro j
  rcases Nat.lt_or_ge j k with h | h
  · have h1 : Nat.testBit (z <<< k) j = false := by
      simp [Nat.testBit_shiftLeft, Nat.not_le.mpr h]
    have h2 : Nat.testBit (z * 2 ^ k + y) j = Nat.testBit y j := by
      rw [Nat.mul_comm, Nat.testBit_mul_pow_two_add z hy j, if_pos h]
    simp [Nat.testBit_or, h1, h2]
  · have h1 : Nat.testBit (z <<< k) j = Nat.testBit z (j - k) := by
      simp [Nat.testBit_shiftLeft, Nat.le_of_lt, h]
    have h2 : Nat.testBit (z * 2 ^ k + y) j = Nat.testBit z (j - k) := by
      rw [Nat.mul_comm, Nat.testBit_mul_pow_two_add z hy j, if_neg (by omega)]
    have h3 : Nat.testBit y j = false :=
      Nat.testBit_lt_two_pow (lt_of_lt_of_le hy (Nat.pow_le_pow_right (by norm_num) h))
    simp [Nat.testBit_or, h1, h2, h3]

/-- The packed value of `Color::rgba` in plain arithmetic. -/
theorem Color.rgba_val (r g b a : Nat) (hr : r < 256) (hg : g < 256) (hb : b < 256)
    (ha : a < 256) :
    (Color.rgba r g b a).val = a * 2 ^ 24 + r * 2 ^ 16 + g * 2 ^ 8 + b := by
  show (a <<< 24) ||| (r <<< 16) ||| (g <<< 8) ||| b = _
  have e1 : (g <<< 8) ||| b = g * 2 ^ 8 + b := shiftLeft_or_eq_add g b 8 (by omega)
  have e2 : (r <<< 16) ||| (g * 2 ^ 8 + b) = r * 2 ^ 16 + (g * 2 ^ 8 + b) :=
    shiftLeft_or_eq_add r _ 16 (by omega)
  have e3 : (a <<< 24) ||| (r * 2 ^ 16 + (g * 2 ^ 8 + b)) =
      a * 2 ^ 24 + (r * 2 ^ 16 + (g * 2 ^ 8 + b)) :=
    shiftLeft_or_eq_add a _ 24 (by omega)
  calc (a <<< 24) ||| (r <<< 16) ||| (g <<< 8) ||| b
      = (a <<< 24) ||| ((r <<< 16) ||| ((g <<< 8) ||| b)) := by
        rw [Nat.lor_assoc, Nat.lor_assoc]
    _ = a * 2 ^ 24 + (r * 2 ^ 16 + (g * 2 ^ 8 + b)) := by rw [e1, e2, e3]
    _ = a * 2 ^ 24 + r * 2 ^ 16 + g * 2 ^ 8 + b := by ring

/-- Masking with `2^n - 1` is reduction mod `2^n`. -/
theorem and_two_pow_sub_one (x n : Nat) : x &&& (2 ^ n - 1) = x % 2 ^ n := by
  apply Nat.eq_of_testBit_eq
  intro j
  simp [Nat.testBit_and, Nat.testBit_mod_two_pow, Nat.testBit_two_pow_sub_one,
    Bool.and_comm]

/-- Masking with a shifted mask then shifting right extracts the masked
high part. -/
theorem and_shiftLeft_shiftRight (x m k : Nat) :
    (x &&& (m <<< k)) >>> k = (x >>> k) &&& m := by
  apply Nat.eq_of_testBit_eq
  intro j
  simp [Nat.testBit_shiftRight, Nat.testBit_and, Nat.testBit_shiftLeft]

/-! ## Helper lemmas: owned/borrowed round trips -/

theorem FamilyOwned.as_family_new (f : Family) : (FamilyOwned.new f).as_family = f := by
  cases f <;> rfl

theorem FamilyOwned.new_as_family (fo : FamilyOwned) : FamilyOwned.new fo.as_family = fo := by
  cases fo <;> rfl

theorem AttrsOwned.as_attrs_new (a : Attrs) : (AttrsOwned.new a).as_attrs = a := by
  cases a
  simp [AttrsOwned.new, AttrsOwned.as_attrs, FamilyOwned.as_family_new]

theorem AttrsOwned.new_as_attrs (o : AttrsOwned) : AttrsOwned.new o.as_attrs = o := by
  cases o
  simp [AttrsOwned.new, AttrsOwned.as_attrs, FamilyOwned.new_as_family]

/-- Extracting one byte: mask with `255 <<< k`, then shift right by `k`. -/
theorem byte_extract (x k : Nat) : (x &&& (255 <<< k)) >>> k = x / 2 ^ k % 256 := by
  have h255 : (255 : Nat) = 2 ^ 8 - 1 := by norm_num
  rw [and_shiftLeft_shiftRight, h255, and_two_pow_sub_one, Nat.shiftRight_eq_div_pow]
  norm_num

/-! ## Claim theorems on the data model -/

/-- C8.  Color round trip: for channels in `0..=255`, `Color::rgba` followed
by `.r()`, `.g()`, `.b()`, `.a()` returns the original channels; `Color::rgb`
has alpha 255; and the packed `u32` holds alpha in the highest byte, then
red, then green, then blue in the lowest byte. -/
theorem color_round_trip (r g b a : Nat)
    (hr : r ≤ 255) (hg : g ≤ 255) (hb : b ≤ 255) (ha : a ≤ 255) :
    (Color.rgba r g b a).r = r ∧ (Color.rgba r g b a).g = g ∧
    (Color.rgba r g b a).b = b ∧ (Color.rgba r g b a).a = a ∧
    (Color.rgb r g b).a = 255 ∧
    (Color.rgba r g b a).val = a * 2 ^ 24 + r * 2 ^ 16 + g * 2 ^ 8 + b := by
  have hv : (Color.rgba r g b a).val = a * 2 ^ 24 + r * 2 ^ 16 + g * 2 ^ 8 + b :=
    Color.rgba_val r g b a (by omega) (by omega) (by omega) (by omega)
  have hv' : (Color.rgba r g b 255).val = 255 * 2 ^ 24 + r * 2 ^ 16 + g * 2 ^ 8 + b :=
    Color.rgba_val r g b 255 (by omega) (by omega) (by omega) (by omega)
  have mr : (0x00FF0000 : Nat) = 255 <<< 16 := by norm_num [Nat.shiftLeft_eq]
  have mg : (0x0000FF00 : Nat) = 255 <<< 8 := by norm_num [Nat.shiftLeft_eq]
  have mb : (0x000000FF : Nat) = 255 <<< 0 := by norm_num [Nat.shiftLeft_eq]
  have ma : (0xFF000000 : Nat) = 255 <<< 24 := by norm_num [Nat.shiftLeft_eq]
  refine ⟨?_, ?_, ?_, ?_, ?_, hv⟩
  · show ((Color.rgba r g b a).val &&& 0x00FF0000) >>> 16 = r
    rw [mr, byte_extract, hv]; omega
  · show ((Color.rgba r g b a).val &&& 0x0000FF00) >>> 8 = g
    rw [mg, byte_extract, hv]; omega
  · show (Color.rgba r g b a).val &&& 0x000000FF = b
    have : (Color.rgba r g b a).val &&& 0x000000FF =
        ((Color.rgba r g b a).val &&& (255 <<< 0)) >>> 0 := by rw [← mb]; rfl
    rw [this, byte_extract, hv]; omega
  · show ((Color.rgba r g b a).val &&& 0xFF000000) >>> 24 = a
    rw [ma, byte_extract, hv]; omega
  · show ((Color.rgb r g b).val &&& 0xFF000000) >>> 24 = 255
    show ((Color.rgba r g b 255).val &&& 0xFF000000) >>> 24 = 255
    rw [ma, byte_extract, hv']; omega

/-- C8 witness: the round trip at a concrete color. -/
theorem color_round_trip_witness :
    (3 : Nat) ≤ 255 ∧ (7 : Nat) ≤ 255 ∧ (200 : Nat) ≤ 255 ∧ (9 : Nat) ≤ 255 ∧
    ((Color.rgba 3 7 200 9).r = 3 ∧ (Color.rgba 3 7 200 9).g = 7 ∧
     (Color.rgba 3 7 200 9).b = 200 ∧ (Color.rgba 3 7 200 9).a = 9 ∧
     (Color.rgb 3 7 200).a = 255 ∧
     (Color.rgba 3 7 200 9).val = 9 * 2 ^ 24 + 3 * 2 ^ 16 + 7 * 2 ^ 8 + 200) :=
  ⟨by decide, by decide, by decide, by decide,
   color_round_trip 3 7 200 9 (by decide) (by decide) (by decide) (by decide)⟩

/-- C6.  `Attrs::compatible` is true exactly when family, stretch, style and
weight are equal and the scaling fields compare equal under the f32 total
order; it never reads `color_opt` or `metadata`. -/
theorem compatible_spec (x y : Attrs) :
    (Attrs.compatible x y = true ↔
      (x.family = y.family ∧ x.stretch = y.stretch ∧ x.style = y.style ∧
       x.weight = y.weight ∧ (F32.total_cmp x.scaling y.scaling).isEq = true)) ∧
    (∀ c c' m m',
      Attrs.compatible
        { x with color_opt := c, metadata := m }
        { y with color_opt := c', metadata := m' } = Attrs.compatible x y) := by
  constructor
  · simp [Attrs.compatible, Bool.and_eq_true, beq_iff_eq, and_assoc]
  · intro c c' m m'
    rfl

/-- C7.  Equality of `Attrs`/`AttrsOwned` holds iff all fields are equal with
scaling compared by bit pattern (f32 total order), every value — NaN scaling
included — equals itself, and equal values feed identical data (scaling via
`to_bits`) to the hasher. -/
theorem attrs_eq_hash_contract (x y : Attrs) (o p : AttrsOwned) :
    (Attrs.eqb x y = true ↔
      (x.color_opt = y.color_opt ∧ x.family = y.family ∧ x.stretch = y.stretch ∧
       x.style = y.style ∧ x.weight = y.weight ∧
       x.scaling.to_bits = y.scaling.to_bits ∧ x.metadata = y.metadata)) ∧
    Attrs.eqb x x = true ∧
    (Attrs.eqb x y = true → Attrs.hashInput x = Attrs.hashInput y) ∧
    (AttrsOwned.eqb o p = true ↔
      (o.color_opt = p.color_opt ∧ o.family_owned = p.family_owned ∧
       o.stretch = p.stretch ∧ o.style = p.style ∧ o.weight = p.weight ∧
       o.scaling.to_bits = p.scaling.to_bits ∧ o.metadata = p.metadata)) ∧
    AttrsOwned.eqb o o = true ∧
    (AttrsOwned.eqb o p = true → AttrsOwned.hashInput o = AttrsOwned.hashInput p) := by
  have hiff : Attrs.eqb x y = true ↔
      (x.color_opt = y.color_opt ∧ x.family = y.family ∧ x.stretch = y.stretch ∧
       x.style = y.style ∧ x.weight = y.weight ∧
       x.scaling.to_bits = y.scaling.to_bits ∧ x.metadata = y.metadata) := by
    simp [Attrs.eqb, Bool.and_eq_true, beq_iff_eq, F32.total_cmp_isEq,
      F32.to_bits_inj, and_assoc]
  have hiff' : AttrsOwned.eqb o p = true ↔
      (o.color_opt = p.color_opt ∧ o.family_owned = p.family_owned ∧
       o.stretch = p.stretch ∧ o.style = p.style ∧ o.weight = p.weight ∧
       o.scaling.to_bits = p.scaling.to_bits ∧ o.metadata = p.metadata) := by
    simp [AttrsOwned.eqb, Bool.and_eq_true, beq_iff_eq, F32.total_cmp_isEq,
      F32.to_bits_inj, and_assoc]
  refine ⟨hiff, ?_, ?_, hiff', ?_, ?_⟩
  · simp [Attrs.eqb, F32.total_cmp_isEq]
  · intro h
    obtain ⟨h1, h2, h3, h4, h5, h6, h7⟩ := hiff.mp h
    simp [Attrs.hashInput, h1, h2, h3, h4, h5, h6, h7]
  · simp [AttrsOwned.eqb, F32.total_cmp_isEq]
  · intro h
    obtain ⟨h1, h2, h3, h4, h5, h6, h7⟩ := hiff'.mp h
    simp [AttrsOwned.hashInput, h1, h2, h3, h4, h5, h6, h7]

/-- C7 witness: the contract instantiated at concrete values (a NaN bit
pattern `0x7FC00000` for the scaling field). -/
theorem attrs_eq_hash_contract_witness :
    letI nanAttrs : Attrs :=
      ⟨none, Family.SansSerif, Stretch.Normal, Style.Normal, ⟨400⟩,
        ⟨⟨0x7FC00000, by norm_num⟩⟩, 0⟩
    letI nanOwned : AttrsOwned := AttrsOwned.new nanAttrs
    (Attrs.eqb nanAttrs nanAttrs = true ↔
      (nanAttrs.color_opt = nanAttrs.color_opt ∧ nanAttrs.family = nanAttrs.family ∧
       nanAttrs.stretch = nanAttrs.stretch ∧ nanAttrs.style = nanAttrs.style ∧
       nanAttrs.weight = nanAttrs.weight ∧
       nanAttrs.scaling.to_bits = nanAttrs.scaling.to_bits ∧
       nanAttrs.metadata = nanAttrs.metadata)) ∧
    Attrs.eqb nanAttrs nanAttrs = true ∧
    (Attrs.eqb nanAttrs nanAttrs = true →
      Attrs.hashInput nanAttrs = Attrs.hashInput nanAttrs) ∧
    (AttrsOwned.eqb nanOwned nanOwned = true ↔
      (nanOwned.color_opt = nanOwned.color_opt ∧
       nanOwned.family_owned = nanOwned.family_owned ∧
       nanOwned.stretch = nanOwned.stretch ∧ nanOwned.style = nanOwned.style ∧
       nanOwned.weight = nanOwned.weight ∧
       nanOwned.scaling.to_bits = nanOwned.scaling.to_bits ∧
       nanOwned.metadata = nanOwned.metadata)) ∧
    AttrsOwned.eqb nanOwned nanOwned = true ∧
    (AttrsOwned.eqb nanOwned nanOwned = true →
      AttrsOwned.hashInput nanOwned = AttrsOwned.hashInput nanOwned) :=
  attrs_eq_hash_contract _ _ _ _

/-- C10.  Converting between the borrowed and owned attribute forms loses no
information: `AttrsOwned::new` and `as_attrs` are mutually inverse, as are
`FamilyOwned::new` and `as_family`. -/
theorem owned_borrowed_round_trip (a : Attrs) (o : AttrsOwned) (f : Family)
    (fo : FamilyOwned) :
    (AttrsOwned.new a).as_attrs = a ∧ AttrsOwned.new o.as_attrs = o ∧
    (FamilyOwned.new f).as_family = f ∧ FamilyOwned.new fo.as_family = fo :=
  ⟨AttrsOwned.as_attrs_new a, AttrsOwned.new_as_attrs o,
   FamilyOwned.as_family_new f, FamilyOwned.new_as_family fo⟩

/-! ## Helper lemmas: the interval map -/

namespace RangeMap

variable {V : Type}

theorem containsP_iff {r : Range} {p : Nat} :
    Range.containsP r p = true ↔ r.start ≤ p ∧ p < r.stop := by
  simp [Range.containsP]

theorem containsP_false_iff {r : Range} {p : Nat} :
    Range.containsP r p = false ↔ p < r.start ∨ r.stop ≤ p := by
  rw [← Bool.not_eq_true, containsP_iff]
  omega

theorem overlaps_false_iff {r k : Range} :
    Range.overlaps r k = false ↔ k.stop ≤ r.start ∨ r.stop ≤ k.start := by
  simp [Range.overlaps]
  omega

theorem overlaps_true_iff {r k : Range} :
    Range.overlaps r k = true ↔ r.start < k.stop ∧ k.start < r.stop := by
  simp [Range.overlaps]

theorem mem_insertSorted {e x : Entry V} {l : List (Entry V)} :
    x ∈ insertSorted e l ↔ x = e ∨ x ∈ l := by
  induction l with
  | nil => simp [insertSorted]
  | cons y t ih =>
    by_cases h : e.1.start < y.1.start
    · simp [insertSorted, h]
    · simp [insertSorted, h, ih]
      tauto

theorem find?_congr {α : Type} {p q : α → Bool} {l : List α}
    (h : ∀ a ∈ l, p a = q a) : l.find? p = l.find? q := by
  induction l with
  | nil => rfl
  | cons a t ih =>
    have ha := h a (List.mem_cons_self a t)
    rw [List.find?_cons, List.find?_cons, ha, ih fun b hb => h b (List.mem_cons_of_mem a hb)]

theorem find?_eq_of_unique {α : Type} {p : α → Bool} {l : List α} {a : α}
    (ha : a ∈ l) (hpa : p a = true) (huniq : ∀ b ∈ l, p b = true → b = a) :
    l.find? p = some a := by
  induction l with
  | nil => cases ha
  | cons c t ih =>
    rw [List.find?_cons]
    by_cases hc : p c = true
    · rw [hc]
      exact congrArg some (huniq c (List.mem_cons_self c t) hc)
    · rw [Bool.not_eq_true] at hc
      rw [hc]
      rcases List.mem_cons.mp ha with h | h
      · subst h; rw [hpa] at hc; cases hc
      · exact ih h fun b hb hpb => huniq b (List.mem_cons_of_mem c hb) hpb

theorem getKeyValue_cons {e : Entry V} {t : List (Entry V)} {p : Nat} :
    getKeyValue (e :: t) p =
      if Range.containsP e.1 p then some e else getKeyValue t p := by
  rw [getKeyValue, List.find?_cons]
  by_cases h : Range.containsP e.1 p = true <;> simp [h, getKeyValue]

theorem getKeyValue_append {xs ys : List (Entry V)} {p : Nat} :
    getKeyValue (xs ++ ys) p = (getKeyValue xs p).or (getKeyValue ys p) :=
  List.find?_append

theorem get_cons {e : Entry V} {t : List (Entry V)} {p : Nat} :
    get (e :: t) p = if Range.containsP e.1 p then some e.2 else get t p := by
  rw [get, getKeyValue_cons]
  by_cases h : Range.containsP e.1 p = true <;> simp [h, get]

theorem get_append {xs ys : List (Entry V)} {p : Nat} :
    get (xs ++ ys) p = (get xs p).or (get ys p) := by
  rw [get, getKeyValue_append]
  cases h : getKeyValue xs p <;> simp [get, h]

theorem get_eq_none_iff {m : List (Entry V)} {p : Nat} :
    get m p = none ↔ ∀ e ∈ m, Range.containsP e.1 p = false := by
  simp [get, getKeyValue, List.find?_eq_none]

theorem getKeyValue_mem {m : List (Entry V)} {p : Nat} {e : Entry V}
    (h : getKeyValue m p = some e) : e ∈ m ∧ Range.containsP e.1 p = true := by
  rw [getKeyValue] at h
  have h2 := List.find?_some h
  exact ⟨List.mem_of_find?_eq_some h, by simpa using h2⟩

/-- Within a well-formed map, at most one entry contains a given point. -/
theorem containsP_unique {m : List (Entry V)} (hwf : WF m) {e1 e2 : Entry V} {p : Nat}
    (h1 : e1 ∈ m) (h2 : e2 ∈ m)
    (hc1 : Range.containsP e1.1 p = true) (hc2 : Range.containsP e2.1 p = true) :
    e1 = e2 := by
  obtain ⟨hpw, _⟩ := hwf
  rw [containsP_iff] at hc1 hc2
  have hsym : Symmetric (fun a b : Entry V =>
      a = b ∨ a.1.stop ≤ b.1.start ∨ b.1.stop ≤ a.1.start) := by
    intro a b h
    tauto
  have hS := (hpw.imp fun {a b} h => Or.inr (Or.inl h)).forall hsym
  by_contra hne
  rcases hS h1 h2 hne with h | h | h
  · exact hne h
  · omega
  · omega

/-- In a well-formed map, looking up a point inside a member entry returns
exactly that entry. -/
theorem getKeyValue_of_mem {m : List (Entry V)} (hwf : WF m) {e : Entry V} {p : Nat}
    (he : e ∈ m) (hc : Range.containsP e.1 p = true) :
    getKeyValue m p = some e :=
  find?_eq_of_unique he hc fun b hb hpb => containsP_unique hwf hb he hpb hc

theorem get_of_mem {m : List (Entry V)} (hwf : WF m) {e : Entry V} {p : Nat}
    (he : e ∈ m) (hc : Range.containsP e.1 p = true) :
    get m p = some e.2 := by
  rw [get, getKeyValue_of_mem hwf he hc, Option.map_some']

theorem WF_nil : WF ([] : List (Entry V)) :=
  ⟨List.Pairwise.nil, fun _ h => absurd h (List.not_mem_nil _)⟩

theorem WF_of_sublist {l m : List (Entry V)} (hs : l.Sublist m) (hm : WF m) : WF l :=
  ⟨hm.1.sublist hs, fun e he => hm.2 e (hs.mem he)⟩

/-- Every output entry of `trimEntry` keeps the original value, stays inside
the original range, is non-empty, and does not overlap `r`. -/
theorem trimEntry_mem {r : Range} {e e' : Entry V} (hne : e.1.start < e.1.stop)
    (h : e' ∈ trimEntry r e) :
    e'.2 = e.2 ∧ e.1.start ≤ e'.1.start ∧ e'.1.stop ≤ e.1.stop ∧
      e'.1.start < e'.1.stop ∧ Range.overlaps r e'.1 = false := by
  rw [trimEntry] at h
  by_cases hov : Range.overlaps r e.1 = false
  · rw [hov] at h
    simp at h
    subst h
    exact ⟨rfl, le_refl _, le_refl _, hne, hov⟩
  · rw [Bool.not_eq_false] at hov
    have hov' := overlaps_true_iff.mp hov
    rw [hov] at h
    simp only [Bool.not_true, Bool.false_eq_true, if_false] at h
    rcases List.mem_append.mp h with h' | h'
    · by_cases h1 : e.1.start < r.start
      · rw [if_pos h1] at h'
        simp at h'
        subst h'
        refine ⟨rfl, le_refl _, ?_, h1, ?_⟩
        · show r.start ≤ e.1.stop
          omega
        · rw [overlaps_false_iff]
          left
          show r.start ≤ r.start
          exact le_refl _
      · rw [if_neg h1] at h'
        cases h'
    · by_cases h2 : r.stop < e.1.stop
      · rw [if_pos h2] at h'
        simp at h'
        subst h'
        refine ⟨rfl, ?_, le_refl _, h2, ?_⟩
        · show e.1.start ≤ r.stop
          omega
        · rw [overlaps_false_iff]
          right
          show r.stop ≤ r.stop
          exact le_refl _
      · rw [if_neg h2] at h'
        cases h'

/-- If an entry contains a point outside `r`, some trim remainder still
contains that point. -/
theorem trimEntry_covers {r : Range} {e : Entry V} {p : Nat}
    (hne : e.1.start < e.1.stop) (hc : Range.containsP e.1 p = true)
    (hout : Range.containsP r p = false) :
    ∃ e' ∈ trimEntry r e, Range.containsP e'.1 p = true ∧ e'.2 = e.2 := by
  rw [containsP_iff] at hc
  rw [containsP_false_iff] at hout
  rw [trimEntry]
  by_cases hov : Range.overlaps r e.1 = false
  · rw [hov]
    exact ⟨e, by simp, containsP_iff.mpr hc, rfl⟩
  · rw [Bool.not_eq_false] at hov
    rw [hov]
    simp only [Bool.not_true, if_false]
    rcases hout with hlt | hge
    · have h1 : e.1.start < r.start := by omega
      refine ⟨(⟨e.1.start, r.start⟩, e.2), ?_, containsP_iff.mpr (by simp; omega), rfl⟩
      simp [h1]
    · have h2 : r.stop < e.1.stop := by omega
      refine ⟨(⟨r.stop, e.1.stop⟩, e.2), ?_, containsP_iff.mpr (by simp; omega), rfl⟩
      by_cases h1 : e.1.start < r.start <;> simp [h1, h2]

theorem mem_insert {m : List (Entry V)} {r : Range} {v : V} {e' : Entry V} :
    e' ∈ insert m r v ↔ e' = (r, v) ∨ ∃ e ∈ m, e' ∈ trimEntry r e := by
  rw [insert, mem_insertSorted, List.mem_flatMap]

/-- Trimming every entry of a well-formed map against `r` keeps it pairwise
ordered and disjoint. -/
theorem pairwise_flatMap_trim {m : List (Entry V)} (hwf : WF m) {r : Range}
    (hr : r.start ≤ r.stop) :
    (m.flatMap (trimEntry r)).Pairwise (fun a b => a.1.stop ≤ b.1.start) := by
  obtain ⟨hpw, hne⟩ := hwf
  induction m with
  | nil => exact List.Pairwise.nil
  | cons c t ih =>
    rcases List.pairwise_cons.mp hpw with ⟨hcrel, hpwt⟩
    have hcne : c.1.start < c.1.stop := hne c (List.mem_cons_self c t)
    rw [List.flatMap_cons, List.pairwise_append]
    refine ⟨?_, ih hpwt (fun e he => hne e (List.mem_cons_of_mem c he)), ?_⟩
    · -- within the trim output of one entry: at most a left and a right part
      rw [trimEntry]
      by_cases hov : Range.overlaps r c.1 = false
      · simp [hov]
      · rw [Bool.not_eq_false] at hov
        rw [hov]
        simp only [Bool.not_true, Bool.false_eq_true, if_false]
        by_cases h1 : c.1.start < r.start <;> by_cases h2 : r.stop < c.1.stop <;>
          simp [h1, h2] <;> omega
    · -- across entries: remainders stay within their original ranges
      intro a ha b hb
      rcases List.mem_flatMap.mp hb with ⟨e2, he2, hb'⟩
      have h1 := trimEntry_mem hcne ha
      have h2 := trimEntry_mem (hne e2 (List.mem_cons_of_mem c he2)) hb'
      have := hcrel e2 he2
      omega

/-- Inserting an entry disjoint from every element of a pairwise ordered,
non-empty list in sorted position keeps the list pairwise ordered. -/
theorem pairwise_insertSorted {e : Entry V} {l : List (Entry V)}
    (hl : l.Pairwise (fun a b => a.1.stop ≤ b.1.start))
    (hne : ∀ x ∈ l, x.1.start < x.1.stop) (he : e.1.start < e.1.stop)
    (hdisj : ∀ x ∈ l, x.1.stop ≤ e.1.start ∨ e.1.stop ≤ x.1.start) :
    (insertSorted e l).Pairwise (fun a b => a.1.stop ≤ b.1.start) := by
  induction l with
  | nil => simp [insertSorted]
  | cons c t ih =>
    rcases List.pairwise_cons.mp hl with ⟨hcrel, hpwt⟩
    have hcne : c.1.start < c.1.stop := hne c (List.mem_cons_self c t)
    have hcd := hdisj c (List.mem_cons_self c t)
    rw [insertSorted]
    by_cases hlt : e.1.start < c.1.start
    · rw [if_pos hlt]
      refine List.pairwise_cons.mpr ⟨?_, hl⟩
      intro b hb
      rcases List.mem_cons.mp hb with hb' | hb'
      · subst hb'
        omega
      · have h1 : e.1.stop ≤ c.1.start := by omega
        have h2 := hcrel b hb'
        omega
    · rw [if_neg hlt]
      refine List.pairwise_cons.mpr ⟨?_, ih hpwt
        (fun x hx => hne x (List.mem_cons_of_mem c hx))
        (fun x hx => hdisj x (List.mem_cons_of_mem c hx))⟩
      intro b hb
      rcases mem_insertSorted.mp hb with hb' | hb'
      · subst hb'
        omega
      · exact hcrel b hb'

/-- Interval-map insert of a non-empty range preserves well-formedness. -/
theorem WF_insert {m : List (Entry V)} (hwf : WF m) {r : Range} (hr : r.start < r.stop)
    (v : V) : WF (insert m r v) := by
  have htrim : ∀ e' ∈ m.flatMap (trimEntry r),
      e'.1.start < e'.1.stop ∧ Range.overlaps r e'.1 = false := by
    intro e' he'
    rcases List.mem_flatMap.mp he' with ⟨e, he, he''⟩
    have h := trimEntry_mem (hwf.2 e he) he''
    exact ⟨h.2.2.2.1, h.2.2.2.2⟩
  constructor
  · apply pairwise_insertSorted (pairwise_flatMap_trim hwf (le_of_lt hr))
      (fun x hx => (htrim x hx).1) hr
    intro x hx
    have := (htrim x hx).2
    rw [overlaps_false_iff] at this
    exact this
  · intro e he
    rcases mem_insertSorted.mp he with he' | he'
    · subst he'
      exact hr
    · exact (htrim e he').1

/-- Point semantics of interval-map insert on a well-formed map: inside the
inserted range the new value wins; outside it nothing changes. -/
theorem get_insert {m : List (Entry V)} (hwf : WF m) {r : Range}
    (hr : r.start < r.stop) (v : V) (p : Nat) :
    get (insert m r v) p =
      if r.start ≤ p ∧ p < r.stop then some v else get m p := by
  have hwf' := WF_insert hwf hr v
  by_cases hp : r.start ≤ p ∧ p < r.stop
  · rw [if_pos hp]
    exact get_of_mem hwf' (mem_insert.mpr (Or.inl rfl)) (containsP_iff.mpr hp)
  · rw [if_neg hp]
    have hp' : p < r.start ∨ r.stop ≤ p := by
      by_cases h : r.start ≤ p
      · right
        by_contra hlt
        exact hp ⟨h, by omega⟩
      · left
        omega
    cases hg : get m p with
    | some w =>
      rw [get] at hg
      cases hkv : getKeyValue m p with
      | none => rw [hkv] at hg; cases hg
      | some kv =>
        rw [hkv, Option.map_some'] at hg
        obtain ⟨hmem, hcont⟩ := getKeyValue_mem hkv
        obtain ⟨e', he', hc', hv'⟩ := trimEntry_covers (hwf.2 kv hmem) hcont
          (by rw [containsP_false_iff]; exact hp')
        have : e' ∈ insert m r v := mem_insert.mpr (Or.inr ⟨kv, hmem, he'⟩)
        rw [get_of_mem hwf' this hc', hv']
        exact hg
    | none =>
      rw [get_eq_none_iff] at hg ⊢
      intro e he
      rcases mem_insert.mp he with he' | ⟨e0, he0, he0'⟩
      · subst he'
        rw [containsP_false_iff]
        exact hp'
      · have h := trimEntry_mem (hwf.2 e0 he0) he0'
        have h0 := hg e0 he0
        rw [containsP_false_iff] at h0 ⊢
        omega

/-- Trimming against a range that overlaps nothing is the identity. -/
theorem flatMap_trim_id {n : List (Entry V)} {r : Range}
    (h : ∀ e ∈ n, Range.overlaps r e.1 = false) : n.flatMap (trimEntry r) = n := by
  induction n with
  | nil => rfl
  | cons c t ih =>
    rw [List.flatMap_cons, trimEntry, h c (List.mem_cons_self c t)]
    rw [ih fun e he => h e (List.mem_cons_of_mem c he)]
    rfl

/-- Sorted insertion lands exactly between the entries with smaller-or-equal
start and those with larger start. -/
theorem insertSorted_between {e : Entry V} {bel ab : List (Entry V)}
    (h1 : ∀ x ∈ bel, ¬ e.1.start < x.1.start) (h2 : ∀ x ∈ ab, e.1.start < x.1.start) :
    insertSorted e (bel ++ ab) = bel ++ e :: ab := by
  induction bel with
  | nil =>
    cases ab with
    | nil => rfl
    | cons a t =>
      rw [List.nil_append, insertSorted, if_pos (h2 a (List.mem_cons_self a t))]
      rfl
  | cons c t ih =>
    rw [List.cons_append, insertSorted, if_neg (h1 c (List.mem_cons_self c t)),
      ih fun x hx => h1 x (List.mem_cons_of_mem c hx)]
    rfl

/-- Inserting a range that fits strictly between two blocks of a disjoint
sorted list splices it in without trimming anything. -/
theorem insert_between {bel ab : List (Entry V)} {r : Range} {v : V}
    (hb : ∀ x ∈ bel, x.1.stop ≤ r.start) (hbne : ∀ x ∈ bel, x.1.start < x.1.stop)
    (ha : ∀ x ∈ ab, r.stop ≤ x.1.start) (hr : r.start < r.stop) :
    insert (bel ++ ab) r v = bel ++ (r, v) :: ab := by
  rw [insert]
  have hov : ∀ e ∈ bel ++ ab, Range.overlaps r e.1 = false := by
    intro e he
    rw [overlaps_false_iff]
    rcases List.mem_append.mp he with h | h
    · exact Or.inl (hb e h)
    · exact Or.inr (ha e h)
  rw [flatMap_trim_id hov]
  apply insertSorted_between
  · intro x hx
    have h1 := hb x hx
    have h2 := hbne x hx
    show ¬ r.start < x.1.start
    omega
  · intro x hx
    have h1 := ha x hx
    show r.start < x.1.start
    omega

/-- Exact-key removal of a middle entry whose key occurs nowhere else. -/
theorem remove_middle {bel rest : List (Entry V)} {k : Range} {v : V}
    (hb : ∀ x ∈ bel, x.1 ≠ k) (hrest : ∀ x ∈ rest, x.1 ≠ k) :
    remove (bel ++ (k, v) :: rest) k = bel ++ rest := by
  rw [remove, List.filter_append, List.filter_cons]
  have hk : (decide (((k, v) : Entry V).1 ≠ k)) = false := by simp
  rw [hk]
  simp only [Bool.false_eq_true, if_false]
  rw [List.filter_eq_self.mpr fun x hx => by simpa using hb x hx,
    List.filter_eq_self.mpr fun x hx => by simpa using hrest x hx]

end RangeMap

/-! ## Helper lemmas: `AttrsList` point semantics -/

namespace AttrsList

/-- `get_span` on a freshly created list returns the defaults. -/
theorem get_span_new (d : Attrs) (i : Nat) : (AttrsList.new d).get_span i = d := by
  simp [AttrsList.new, get_span, RangeMap.get, RangeMap.getKeyValue,
    AttrsOwned.as_attrs_new]

/-- `add_span` with a non-backwards range preserves the interval-map
invariant.  (A backwards range, `start > end`, violates the interval map's
documented insert precondition and aborts the original program, so no state
arises from it.) -/
theorem WF_add_span {l : AttrsList} (hwf : RangeMap.WF l.spans) {r : Range}
    (hr : r.start ≤ r.stop) (v : Attrs) :
    RangeMap.WF (l.add_span r v).spans := by
  rw [add_span]
  by_cases h : r.start = r.stop
  · rw [if_pos h]
    exact hwf
  · rw [if_neg h]
    exact RangeMap.WF_insert hwf (by omega) _

/-- Point semantics of `add_span`: inside the added range the new attributes
win, outside nothing changes.  Holds for empty ranges too (the no-op). -/
theorem get_span_add_span {l : AttrsList} (hwf : RangeMap.WF l.spans) {r : Range}
    (hr : r.start ≤ r.stop) (v : Attrs) (i : Nat) :
    (l.add_span r v).get_span i =
      if r.start ≤ i ∧ i < r.stop then v else l.get_span i := by
  rw [add_span]
  by_cases h : r.start = r.stop
  · rw [if_pos h, if_neg (by omega)]
  · rw [if_neg h]
    have hlt : r.start < r.stop := by omega
    show ((RangeMap.get (RangeMap.insert l.spans r (AttrsOwned.new v)) i).map
        AttrsOwned.as_attrs).getD l.defaults.as_attrs = _
    rw [RangeMap.get_insert hwf hlt]
    by_cases hi : r.start ≤ i ∧ i < r.stop
    · rw [if_pos hi, if_pos hi, Option.map_some', Option.getD_some,
        AttrsOwned.as_attrs_new]
    · rw [if_neg hi, if_neg hi]
      rfl

end AttrsList

/-- Generalized last-write-wins over a fold from any well-formed state. -/
theorem foldl_get_span (i : Nat) (ops : List (Range × Attrs)) :
    ∀ l : AttrsList, RangeMap.WF l.spans →
      (∀ op ∈ ops, op.1.start ≤ op.1.stop) →
      (ops.foldl (fun l e => l.add_span e.1 e.2) l).get_span i =
        (specLastWrite i ops).getD (l.get_span i) := by
  induction ops with
  | nil =>
    intro l _ _
    simp [specLastWrite]
  | cons op t ih =>
    intro l hwf hops
    have hop := hops op (List.mem_cons_self op t)
    rw [List.foldl_cons,
      ih (l.add_span op.1 op.2) (AttrsList.WF_add_span hwf hop op.2)
        (fun x hx => hops x (List.mem_cons_of_mem op hx))]
    rw [specLastWrite, specLastWrite, List.reverse_cons, List.find?_append]
    cases hf : List.find? (fun e => Range.containsP e.1 i) t.reverse with
    | some e =>
      simp [hf]
    | none =>
      simp only [hf, Option.or, Option.map_none', Option.getD_none]
      rw [AttrsList.get_span_add_span hwf hop op.2 i]
      rw [List.find?_cons]
      cases hc : Range.containsP op.1 i with
      | true =>
        rw [if_pos (RangeMap.containsP_iff.mp hc)]
        simp
      | false =>
        rw [if_neg (by rw [RangeMap.containsP_false_iff] at hc; omega)]
        simp

/-- C2.  Last-write-wins: after a sequence of `add_span` calls on a fresh
list, `get_span i` returns the attributes of the most recently inserted span
whose range contained `i`, or the defaults if none ever covered `i`.  (A call
whose range runs backwards would abort in the interval map, so sequences are
of calls that return.) -/
theorem get_span_last_write (d : Attrs) (ops : List (Range × Attrs)) (i : Nat)
    (hops : ∀ op ∈ ops, op.1.start ≤ op.1.stop) :
    (applyAdds d ops).get_span i = (specLastWrite i ops).getD d := by
  rw [applyAdds, foldl_get_span i ops (AttrsList.new d)
    ⟨List.Pairwise.nil, fun _ h => absurd h (List.not_mem_nil _)⟩ hops,
    AttrsList.get_span_new]

/-- C2 witness: the spec's concrete scenario — defaults `A`,
`add_span(0..5, B)`, `add_span(3..8, C)`; offsets 2, 3 and 10 give `B`, `C`
and `A` respectively, matching the latest covering insertion. -/
theorem get_span_last_write_witness :
    letI A : Attrs := ⟨none, Family.SansSerif, Stretch.Normal, Style.Normal, ⟨400⟩,
      ⟨⟨0x3F800000, by norm_num⟩⟩, 0⟩
    letI B : Attrs := { A with metadata := 1 }
    letI C : Attrs := { A with metadata := 2 }
    letI ops : List (Range × Attrs) := [(⟨0, 5⟩, B), (⟨3, 8⟩, C)]
    (∀ op ∈ ops, op.1.start ≤ op.1.stop) ∧
    (applyAdds A ops).get_span 3 = (specLastWrite 3 ops).getD A :=
  ⟨by decide, get_span_last_write _ _ 3 (by decide)⟩

/-- C5.  Empty-range no-op: `add_span` with `start == end` leaves the span
list — hence every `get_span` — unchanged, silently. -/
theorem add_span_empty_noop (l : AttrsList) (r : Range) (v : Attrs)
    (h : r.start = r.stop) :
    (l.add_span r v).spansList = l.spansList ∧
      ∀ i, (l.add_span r v).get_span i = l.get_span i := by
  have : l.add_span r v = l := by
    rw [AttrsList.add_span, if_pos h]
  rw [this]
  exact ⟨rfl, fun _ => rfl⟩

/-- C5 witness: adding an empty span `4..4` to a one-span list changes
nothing. -/
theorem add_span_empty_noop_witness :
    letI A : Attrs := ⟨none, Family.SansSerif, Stretch.Normal, Style.Normal, ⟨400⟩,
      ⟨⟨0x3F800000, by norm_num⟩⟩, 0⟩
    letI l : AttrsList := (AttrsList.new A).add_span ⟨0, 5⟩ A
    (4 : Nat) = 4 ∧
    ((l.add_span ⟨4, 4⟩ A).spansList = l.spansList ∧
      ∀ i, (l.add_span ⟨4, 4⟩ A).get_span i = l.get_span i) :=
  ⟨rfl, add_span_empty_noop _ ⟨4, 4⟩ _ rfl⟩

/-! ## Helper lemmas: `split_off` -/

/-- Point lookup in a list of shifted entries is lookup at the shifted point. -/
theorem get_shiftEntry_map (index j : Nat) (ab : List (Entry AttrsOwned)) :
    RangeMap.get (ab.map (shiftEntry index)) j = RangeMap.get ab (index + j) := by
  induction ab with
  | nil => rfl
  | cons e t ih =>
    rw [List.map_cons, RangeMap.get_cons, RangeMap.get_cons]
    have : Range.containsP (shiftEntry index e).1 j = Range.containsP e.1 (index + j) := by
      rcases hc : Range.containsP e.1 (index + j) with _ | _
    -- align the two Bool conditions by cases on arithmetic facts
      · rw [RangeMap.containsP_false_iff] at hc
        rw [← Bool.not_eq_true, RangeMap.containsP_iff]
        show ¬(e.1.start - index ≤ j ∧ j < e.1.stop - index)
        omega
      · rw [RangeMap.containsP_iff] at hc
        rw [RangeMap.containsP_iff]
        show e.1.start - index ≤ j ∧ j < e.1.stop - index
        omega
    rw [this, ih]
    rfl

/-- Shifting a block of entries that all start at or after `index` preserves
well-formedness. -/
theorem WF_shiftEntry_map {index : Nat} {ab : List (Entry AttrsOwned)}
    (hwf : RangeMap.WF ab) (hab : ∀ e ∈ ab, index ≤ e.1.start) :
    RangeMap.WF (ab.map (shiftEntry index)) := by
  constructor
  · rw [List.pairwise_map]
    apply hwf.1.imp_of_mem
    intro a b ha hb h
    have h1 := hwf.2 a ha
    have h2 := hab a ha
    show a.1.stop - index ≤ b.1.start - index
    omega
  · intro e he
    rcases List.mem_map.mp he with ⟨x, hx, hxe⟩
    subst hxe
    have h1 := hwf.2 x hx
    have h2 := hab x hx
    show x.1.start - index < x.1.stop - index
    omega

/-- Structural decomposition of a well-formed span list at offset `index`:
a block entirely below, at most one straddling entry, and a block at or
after. -/
theorem spans_decomp (index : Nat) (m : List (Entry AttrsOwned))
    (hwf : RangeMap.WF m) :
    ∃ bel mid ab, m = bel ++ mid ++ ab ∧
      (∀ e ∈ bel, e.1.stop ≤ index) ∧
      (mid = [] ∨ ∃ me : Entry AttrsOwned,
        mid = [me] ∧ me.1.start < index ∧ index < me.1.stop) ∧
      (∀ e ∈ ab, index ≤ e.1.start) := by
  induction m with
  | nil => exact ⟨[], [], [], rfl, by simp, Or.inl rfl, by simp⟩
  | cons c t ih =>
    have hwft : RangeMap.WF t :=
      RangeMap.WF_of_sublist (List.sublist_cons_self c t) hwf
    have hcne := hwf.2 c (List.mem_cons_self c t)
    have hcrel := (List.pairwise_cons.mp hwf.1).1
    by_cases h1 : c.1.stop ≤ index
    · obtain ⟨bel, mid, ab, heq, hb, hm, ha⟩ := ih hwft
      refine ⟨c :: bel, mid, ab, by rw [List.cons_append, List.cons_append, heq], ?_, hm, ha⟩
      intro e he
      rcases List.mem_cons.mp he with he' | he'
      · subst he'
        exact h1
      · exact hb e he'
    · by_cases h2 : index ≤ c.1.start
      · refine ⟨[], [], c :: t, rfl, by simp, Or.inl rfl, ?_⟩
        intro e he
        rcases List.mem_cons.mp he with he' | he'
        · subst he'
          exact h2
        · have := hcrel e he'
          omega
      · refine ⟨[], [c], t, rfl, by simp, Or.inr ⟨c, rfl, by omega, by omega⟩, ?_⟩
        intro e he
        have := hcrel e he
        omega

/-- The `removes` list collected by `split_off` on a decomposed span list:
the straddler tagged for resizing, then the at-or-after block. -/
theorem splitRemoves_eq {index : Nat} {bel mid ab : List (Entry AttrsOwned)}
    (hb : ∀ e ∈ bel, e.1.stop ≤ index)
    (hm : ∀ e ∈ mid, e.1.start < index ∧ index < e.1.stop)
    (ha : ∀ e ∈ ab, index ≤ e.1.start ∧ index < e.1.stop) :
    AttrsList.splitRemoves index (bel ++ mid ++ ab) =
      mid.map (fun e => (e.1, true)) ++ ab.map (fun e => (e.1, false)) := by
  rw [AttrsList.splitRemoves, List.filterMap_append, List.filterMap_append]
  have h1 : List.filterMap (fun e =>
      if e.1.stop ≤ index then none
      else if e.1.start ≥ index then some (e.1, false)
      else some (e.1, true)) bel = [] := by
    rw [List.filterMap_eq_nil_iff]
    intro e he
    rw [if_pos (hb e he)]
  have h2 : ∀ (l : List (Entry AttrsOwned)),
      (∀ e ∈ l, e.1.start < index ∧ index < e.1.stop) →
      List.filterMap (fun e =>
        if e.1.stop ≤ index then none
        else if e.1.start ≥ index then some (e.1, false)
        else some (e.1, true)) l = l.map (fun e => (e.1, true)) := by
    intro l hl
    induction l with
    | nil => rfl
    | cons c t iht =>
      have hc := hl c (List.mem_cons_self c t)
      rw [List.filterMap_cons, if_neg (by omega), if_neg (by omega),
        iht fun e he => hl e (List.mem_cons_of_mem c he), List.map_cons]
  have h3 : ∀ (l : List (Entry AttrsOwned)),
      (∀ e ∈ l, index ≤ e.1.start ∧ index < e.1.stop) →
      List.filterMap (fun e =>
        if e.1.stop ≤ index then none
        else if e.1.start ≥ index then some (e.1, false)
        else some (e.1, true)) l = l.map (fun e => (e.1, false)) := by
    intro l hl
    induction l with
    | nil => rfl
    | cons c t iht =>
      have hc := hl c (List.mem_cons_self c t)
      rw [List.filterMap_cons, if_neg (by omega), if_pos (by omega),
        iht fun e he => hl e (List.mem_cons_of_mem c he), List.map_cons]
  rw [h1, h2 mid hm, h3 ab ha, List.nil_append]

/-- Running the `split_off` loop over the at-or-after block: every step finds
its span, removes it from `self` and appends its shifted copy to `new`. -/
theorem splitLoop_above (index : Nat) (ab : List (Entry AttrsOwned)) :
    ∀ (low n : List (Entry AttrsOwned)),
      RangeMap.WF (low ++ ab) →
      (∀ e ∈ low, e.1.stop ≤ index) →
      (∀ e ∈ ab, index ≤ e.1.start) →
      (∀ e ∈ n, e.1.start < e.1.stop) →
      (∀ e ∈ n, ∀ k ∈ ab, e.1.stop ≤ k.1.start - index) →
      AttrsList.splitLoop index (ab.map (fun e => (e.1, false))) (low ++ ab) n =
        some (low, n ++ ab.map (shiftEntry index)) := by
  induction ab with
  | nil =>
    intro low n _ _ _ _ _
    simp [AttrsList.splitLoop]
  | cons k rest ih =>
    intro low n hwf hlow hab hn hord
    obtain ⟨⟨ks, kt⟩, kv⟩ := k
    have hkmem : ((⟨⟨ks, kt⟩, kv⟩ : Entry AttrsOwned)) ∈ low ++ ⟨⟨ks, kt⟩, kv⟩ :: rest :=
      List.mem_append_right low (List.mem_cons_self _ rest)
    have hkne : ks < kt := hwf.2 _ hkmem
    have hkidx : index ≤ ks := hab _ (List.mem_cons_self _ rest)
    have hkrest : ∀ x ∈ rest, kt ≤ x.1.start := by
      intro x hx
      have hpw := (List.pairwise_append.mp hwf.1).2.1
      exact (List.pairwise_cons.mp hpw).1 x hx
    have hfind : RangeMap.getKeyValue (low ++ ⟨⟨ks, kt⟩, kv⟩ :: rest) ks =
        some ⟨⟨ks, kt⟩, kv⟩ :=
      RangeMap.getKeyValue_of_mem hwf hkmem
        (RangeMap.containsP_iff.mpr ⟨le_refl ks, hkne⟩)
    have hrem : RangeMap.remove (low ++ ⟨⟨ks, kt⟩, kv⟩ :: rest) ⟨ks, kt⟩ =
        low ++ rest := by
      apply RangeMap.remove_middle
      · intro x hx hxk
        have h1 := hlow x hx
        have h2 : x.1.stop = kt := by rw [hxk]
        omega
      · intro x hx hxk
        have h1 := hkrest x hx
        have h2 : x.1.start = ks := by rw [hxk]
        omega
    have hins : RangeMap.insert n ⟨ks - index, kt - index⟩ kv =
        n ++ [(⟨ks - index, kt - index⟩, kv)] := by
      have h := @RangeMap.insert_between _ n []
        ⟨ks - index, kt - index⟩ kv
        (fun x hx => hord x hx _ (List.mem_cons_self _ rest))
        hn (fun x hx => absurd hx (List.not_mem_nil x))
        (show ks - index < kt - index by omega)
      simpa using h
    rw [List.map_cons, AttrsList.splitLoop, hfind]
    simp only [Bool.false_eq_true, if_false]
    rw [hrem, hins]
    refine (ih low (n ++ [(({ start := ks - index, stop := kt - index } : Range), kv)])
      (RangeMap.WF_of_sublist ((List.sublist_cons_self _ rest).append_left low) hwf)
      hlow
      (fun e he => hab e (List.mem_cons_of_mem _ he))
      ?_ ?_).trans ?_
    · intro e he
      rcases List.mem_append.mp he with he' | he'
      · exact hn e he'
      · rw [List.mem_singleton] at he'
        subst he'
        show ks - index < kt - index
        omega
    · intro e he x hx
      rcases List.mem_append.mp he with he' | he'
      · exact hord e he' x (List.mem_cons_of_mem _ hx)
      · rw [List.mem_singleton] at he'
        subst he'
        have := hkrest x hx
        show kt - index ≤ x.1.start - index
        omega
    · rw [List.map_cons, List.append_assoc]
      rfl

/-- Full characterization of `split_off` on a well-formed list: it succeeds,
both halves are well-formed, `self` keeps exactly the coverage below `index`,
and the new list's coverage at `j` is the original coverage at `index + j`. -/
theorem split_off_spec (l : AttrsList) (index : Nat) (hwf : RangeMap.WF l.spans) :
    ∃ a b : AttrsList,
      l.split_off index = some (a, b) ∧
      a.defaults = l.defaults ∧ b.defaults = l.defaults ∧
      RangeMap.WF a.spans ∧ RangeMap.WF b.spans ∧
      (∀ e ∈ a.spans, e.1.stop ≤ index) ∧
      (∀ i, i < index → RangeMap.get a.spans i = RangeMap.get l.spans i) ∧
      (∀ j, RangeMap.get b.spans j = RangeMap.get l.spans (index + j)) := by
  obtain ⟨bel, mid, ab, heq, hb, hm, ha⟩ := spans_decomp index l.spans hwf
  rcases hm with hmid | ⟨me, hmid, hms, hmt⟩
  · -- no straddling span
    subst hmid
    rw [List.append_assoc, List.nil_append] at heq
    have hwfL : RangeMap.WF (bel ++ ab) := heq ▸ hwf
    have habne : ∀ e ∈ ab, e.1.start < e.1.stop := fun e he =>
      hwfL.2 e (List.mem_append_right bel he)
    have hsr : AttrsList.splitRemoves index l.spans =
        ab.map (fun e => (e.1, false)) := by
      rw [heq]
      have h := @splitRemoves_eq index bel [] ab
        hb (by simp) (fun e he => ⟨ha e he, by have := habne e he; have := ha e he; omega⟩)
      simpa using h
    have hloop : AttrsList.splitLoop index (AttrsList.splitRemoves index l.spans)
        l.spans [] = some (bel, ab.map (shiftEntry index)) := by
      rw [hsr, heq]
      have h := splitLoop_above index ab bel [] hwfL hb ha
        (fun e he => absurd he (List.not_mem_nil e))
        (fun e he => absurd he (List.not_mem_nil e))
      simpa using h
    refine ⟨{ l with spans := bel },
      ⟨AttrsOwned.new l.defaults.as_attrs, ab.map (shiftEntry index)⟩,
      ?_, rfl, AttrsOwned.new_as_attrs l.defaults, ?_, ?_, hb, ?_, ?_⟩
    · rw [AttrsList.split_off, hloop]
    · exact RangeMap.WF_of_sublist (heq ▸ List.sublist_append_left bel ab) hwf
    · exact WF_shiftEntry_map
        (RangeMap.WF_of_sublist (heq ▸ List.sublist_append_right bel ab) hwf) ha
    · intro i hi
      show RangeMap.get bel i = RangeMap.get l.spans i
      rw [heq, RangeMap.get_append]
      have : RangeMap.get ab i = none := by
        rw [RangeMap.get_eq_none_iff]
        intro e he
        rw [RangeMap.containsP_false_iff]
        have := ha e he
        omega
      rw [this, Option.or_none]
    · intro j
      show RangeMap.get (ab.map (shiftEntry index)) j = RangeMap.get l.spans (index + j)
      rw [get_shiftEntry_map, heq, RangeMap.get_append]
      have : RangeMap.get bel (index + j) = none := by
        rw [RangeMap.get_eq_none_iff]
        intro e he
        rw [RangeMap.containsP_false_iff]
        have := hb e he
        omega
      rw [this, Option.none_or]
  · -- one straddling span `me`
    subst hmid
    obtain ⟨⟨ms, mt⟩, mv⟩ := me
    simp only at hms hmt
    rw [List.append_assoc, List.singleton_append] at heq
    have hwfL : RangeMap.WF (bel ++ (⟨⟨ms, mt⟩, mv⟩ : Entry AttrsOwned) :: ab) :=
      heq ▸ hwf
    have hbelms : ∀ x ∈ bel, x.1.stop ≤ ms := by
      intro x hx
      have := (List.pairwise_append.mp hwfL.1).2.2 x hx _ (List.mem_cons_self _ ab)
      exact this
    have hbelne : ∀ x ∈ bel, x.1.start < x.1.stop := fun x hx =>
      hwfL.2 x (List.mem_append_left _ hx)
    have habmt : ∀ x ∈ ab, mt ≤ x.1.start := by
      intro x hx
      have hpw := (List.pairwise_append.mp hwfL.1).2.1
      exact (List.pairwise_cons.mp hpw).1 x hx
    have habne : ∀ e ∈ ab, e.1.start < e.1.stop := fun e he =>
      hwfL.2 e (List.mem_append_right _ (List.mem_cons_of_mem _ he))
    have hmne : ms < mt := by omega
    have hsr : AttrsList.splitRemoves index l.spans =
        (({ start := ms, stop := mt } : Range), true) ::
          ab.map (fun e => (e.1, false)) := by
      rw [heq]
      have h := @splitRemoves_eq index bel [(⟨⟨ms, mt⟩, mv⟩ : Entry AttrsOwned)] ab
        hb
        (by
          intro e he
          rw [List.mem_singleton] at he
          subst he
          exact ⟨hms, hmt⟩)
        (fun e he => ⟨ha e he, by have := habne e he; have := ha e he; omega⟩)
      rw [List.append_assoc, List.singleton_append] at h
      simpa using h
    have hfind : RangeMap.getKeyValue l.spans ms =
        some (⟨⟨ms, mt⟩, mv⟩ : Entry AttrsOwned) := by
      rw [heq]
      exact RangeMap.getKeyValue_of_mem hwfL
        (List.mem_append_right _ (List.mem_cons_self _ ab))
        (RangeMap.containsP_iff.mpr ⟨le_refl ms, hmne⟩)
    have hrem : RangeMap.remove l.spans ⟨ms, mt⟩ = bel ++ ab := by
      rw [heq]
      apply RangeMap.remove_middle
      · intro x hx hxk
        have h1 := hbelms x hx
        have h2 : x.1.stop = mt := by rw [hxk]
        omega
      · intro x hx hxk
        have h1 := habmt x hx
        have h2 : x.1.start = ms := by rw [hxk]
        omega
    have hins_self : RangeMap.insert (bel ++ ab)
        ({ start := ms, stop := index } : Range) mv =
        bel ++ (({ start := ms, stop := index } : Range), mv) :: ab :=
      RangeMap.insert_between hbelms hbelne
        (by
          intro x hx
          have := habmt x hx
          show index ≤ x.1.start
          omega)
        hms
    have hwf2 : RangeMap.WF
        (bel ++ (({ start := ms, stop := index } : Range), mv) :: ab) := by
      constructor
      · apply List.pairwise_append.mpr
        refine ⟨(List.pairwise_append.mp hwfL.1).1, ?_, ?_⟩
        · apply List.pairwise_cons.mpr
          refine ⟨?_, (List.pairwise_cons.mp (List.pairwise_append.mp hwfL.1).2.1).2⟩
          intro x hx
          have := ha x hx
          show index ≤ x.1.start
          omega
        · intro x hx y hy
          rcases List.mem_cons.mp hy with hy' | hy'
          · subst hy'
            have := hbelms x hx
            show x.1.stop ≤ ms
            omega
          · exact (List.pairwise_append.mp hwfL.1).2.2 x hx y
              (List.mem_cons_of_mem _ hy')
      · intro e he
        rcases List.mem_append.mp he with he' | he'
        · exact hbelne e he'
        · rcases List.mem_cons.mp he' with he'' | he''
          · subst he''
            show ms < index
            omega
          · exact habne e he''
    have hwfab : RangeMap.WF ab :=
      RangeMap.WF_of_sublist
        ((List.sublist_cons_self _ ab).trans (List.sublist_append_right bel _))
        (heq ▸ hwf)
    have hstep : AttrsList.splitLoop index (AttrsList.splitRemoves index l.spans)
        l.spans [] =
        AttrsList.splitLoop index (ab.map (fun e => (e.1, false)))
          (bel ++ (({ start := ms, stop := index } : Range), mv) :: ab)
          [(({ start := 0, stop := mt - index } : Range), mv)] := by
      rw [hsr, AttrsList.splitLoop, hfind]
      simp only [if_true]
      rw [hrem, hins_self,
        show RangeMap.insert ([] : List (Entry AttrsOwned))
            ({ start := 0, stop := mt - index } : Range) mv =
          [(({ start := 0, stop := mt - index } : Range), mv)] from rfl]
    have hloop2 := splitLoop_above index ab
      (bel ++ [(({ start := ms, stop := index } : Range), mv)])
      [(({ start := 0, stop := mt - index } : Range), mv)]
      (by rw [List.append_assoc, List.singleton_append]; exact hwf2)
      (by
        intro e he
        rcases List.mem_append.mp he with he' | he'
        · exact hb e he'
        · rw [List.mem_singleton] at he'
          subst he'
          show ({ start := ms, stop := index } : Range).stop ≤ index
          exact le_refl index)
      ha
      (by
        intro e he
        rw [List.mem_singleton] at he
        subst he
        show 0 < mt - index
        omega)
      (by
        intro e he k hk
        rw [List.mem_singleton] at he
        subst he
        have := habmt k hk
        show mt - index ≤ k.1.start - index
        omega)
    rw [List.append_assoc, List.singleton_append] at hloop2
    have hloopAll : AttrsList.splitLoop index (AttrsList.splitRemoves index l.spans)
        l.spans [] =
        some (bel ++ [(({ start := ms, stop := index } : Range), mv)],
          (({ start := 0, stop := mt - index } : Range), mv) ::
            ab.map (shiftEntry index)) := by
      rw [hstep, hloop2]
      rfl
    refine ⟨{ l with spans := bel ++ [(({ start := ms, stop := index } : Range), mv)] },
      ⟨AttrsOwned.new l.defaults.as_attrs,
        (({ start := 0, stop := mt - index } : Range), mv) ::
          ab.map (shiftEntry index)⟩,
      ?_, rfl, AttrsOwned.new_as_attrs l.defaults, ?_, ?_, ?_, ?_, ?_⟩
    · rw [AttrsList.split_off, hloopAll]
    · exact RangeMap.WF_of_sublist (List.sublist_append_left _ ab)
        (by rw [List.append_assoc, List.singleton_append]; exact hwf2)
    · constructor
      · apply List.pairwise_cons.mpr
        refine ⟨?_, (WF_shiftEntry_map hwfab ha).1⟩
        intro x hx
        rcases List.mem_map.mp hx with ⟨k, hk, hk'⟩
        subst hk'
        have := habmt k hk
        show mt - index ≤ k.1.start - index
        omega
      · intro e he
        rcases List.mem_cons.mp he with he' | he'
        · subst he'
          show 0 < mt - index
          omega
        · exact (WF_shiftEntry_map hwfab ha).2 e he'
    · intro e he
      rcases List.mem_append.mp he with he' | he'
      · exact hb e he'
      · rw [List.mem_singleton] at he'
        subst he'
        exact le_refl index
    · intro i hi
      show RangeMap.get (bel ++ [(({ start := ms, stop := index } : Range), mv)]) i =
        RangeMap.get l.spans i
      rw [heq, RangeMap.get_append, RangeMap.get_append]
      have hab0 : RangeMap.get ab i = none := by
        rw [RangeMap.get_eq_none_iff]
        intro e he
        rw [RangeMap.containsP_false_iff]
        have := ha e he
        omega
      have h2 : RangeMap.get [(({ start := ms, stop := index } : Range), mv)] i =
          RangeMap.get ((⟨⟨ms, mt⟩, mv⟩ : Entry AttrsOwned) :: ab) i := by
        rw [RangeMap.get_cons, RangeMap.get_cons, hab0]
        by_cases hin : ms ≤ i
        · rw [if_pos (RangeMap.containsP_iff.mpr ⟨hin, hi⟩),
            if_pos (RangeMap.containsP_iff.mpr ⟨hin, show i < mt by omega⟩)]
        · rw [if_neg (fun hc => hin (RangeMap.containsP_iff.mp hc).1),
            if_neg (fun hc => hin (RangeMap.containsP_iff.mp hc).1)]
          rfl
      rw [h2]
    · intro j
      show RangeMap.get ((({ start := 0, stop := mt - index } : Range), mv) ::
          ab.map (shiftEntry index)) j = RangeMap.get l.spans (index + j)
      rw [heq, RangeMap.get_cons, get_shiftEntry_map, RangeMap.get_append]
      have hbel0 : RangeMap.get bel (index + j) = none := by
        rw [RangeMap.get_eq_none_iff]
        intro e he
        rw [RangeMap.containsP_false_iff]
        have := hb e he
        omega
      rw [hbel0, Option.none_or, RangeMap.get_cons]
      by_cases hj : index + j < mt
      · rw [if_pos (RangeMap.containsP_iff.mpr
            ⟨Nat.zero_le j, show j < mt - index by omega⟩),
          if_pos (RangeMap.containsP_iff.mpr ⟨show ms ≤ index + j by omega, hj⟩)]
      · rw [if_neg (fun hc => hj (by
            have h5 : j < mt - index := (RangeMap.containsP_iff.mp hc).2
            show index + j < mt
            omega)),
          if_neg (fun hc => hj (RangeMap.containsP_iff.mp hc).2)]

/-- Every reachable `AttrsList` satisfies the interval-map invariant. -/
theorem reachable_wf {l : AttrsList} (h : Reachable l) : RangeMap.WF l.spans := by
  induction h with
  | new d => exact RangeMap.WF_nil
  | add_span r v hr _ ih => exact AttrsList.WF_add_span ih hr v
  | clear_spans _ ih => exact RangeMap.WF_nil
  | split_left _ hs ih =>
    obtain ⟨a', b', hs', _, _, hwa, _, _, _, _⟩ := split_off_spec _ _ ih
    have heq := Option.some.inj (hs'.symm.trans hs)
    have h1 := congrArg Prod.fst heq
    simp only at h1
    rw [← h1]
    exact hwa
  | split_right _ hs ih =>
    obtain ⟨a', b', hs', _, _, _, hwb, _, _, _⟩ := split_off_spec _ _ ih
    have heq := Option.some.inj (hs'.symm.trans hs)
    have h2 := congrArg Prod.snd heq
    simp only at h2
    rw [← h2]
    exact hwb

/-! ## Claim theorems on the attribute list -/

/-- C1.  Split decomposition law: after `new = l.split_off index`, offsets
below `index` read from `self` as before, and every offset `i ≥ index` reads
from `new` at `i - index` what the original list gave at `i`. -/
theorem split_off_decomposition (l a b : AttrsList) (index i : Nat)
    (hreach : Reachable l) (hsplit : l.split_off index = some (a, b)) :
    (i < index → a.get_span i = l.get_span i) ∧
    (index ≤ i → b.get_span (i - index) = l.get_span i) := by
  obtain ⟨a', b', hs', hda, hdb, _, _, _, hga, hgb⟩ :=
    split_off_spec l index (reachable_wf hreach)
  have heq := Option.some.inj (hs'.symm.trans hsplit)
  have h1 := congrArg Prod.fst heq
  have h2 := congrArg Prod.snd heq
  simp only at h1 h2
  subst h1
  subst h2
  constructor
  · intro hi
    rw [AttrsList.get_span, AttrsList.get_span, hga i hi, hda]
  · intro hi
    rw [AttrsList.get_span, AttrsList.get_span, hgb (i - index), hdb,
      show index + (i - index) = i by omega]

/-- C1 witness: the spec's concrete scenario split at 5, checked at offset 6
(and the vacuous below-split side). -/
theorem split_off_decomposition_witness :
    letI A : Attrs := ⟨none, Family.SansSerif, Stretch.Normal, Style.Normal, ⟨400⟩,
      ⟨⟨0x3F800000, by norm_num⟩⟩, 0⟩
    letI B : Attrs := { A with metadata := 1 }
    letI C : Attrs := { A with metadata := 2 }
    letI l : AttrsList := ((AttrsList.new A).add_span ⟨0, 5⟩ B).add_span ⟨3, 8⟩ C
    letI a : AttrsList := ⟨AttrsOwned.new A,
      [(⟨0, 3⟩, AttrsOwned.new B), (⟨3, 5⟩, AttrsOwned.new C)]⟩
    letI b : AttrsList := ⟨AttrsOwned.new A, [(⟨0, 3⟩, AttrsOwned.new C)]⟩
    Reachable l ∧ l.split_off 5 = some (a, b) ∧
    ((6 < 5 → a.get_span 6 = l.get_span 6) ∧
     (5 ≤ 6 → b.get_span (6 - 5) = l.get_span 6)) :=
  ⟨Reachable.add_span ⟨3, 8⟩ _ (by decide)
      (Reachable.add_span ⟨0, 5⟩ _ (by decide) (Reachable.new _)),
   by decide,
   split_off_decomposition _ _ _ 5 6
     (Reachable.add_span ⟨3, 8⟩ _ (by decide)
       (Reachable.add_span ⟨0, 5⟩ _ (by decide) (Reachable.new _)))
     (by decide)⟩

/-- C3.  After any sequence of public operations, no two stored spans
overlap and no stored span is empty. -/
theorem spans_no_overlap_no_empty (l : AttrsList) (hreach : Reachable l) :
    l.spansList.Pairwise (fun a b => Range.overlaps a.1 b.1 = false) ∧
    ∀ e ∈ l.spansList, e.1.start ≠ e.1.stop := by
  have hwf := reachable_wf hreach
  constructor
  · exact hwf.1.imp fun h => RangeMap.overlaps_false_iff.mpr (Or.inr h)
  · intro e he
    exact Nat.ne_of_lt (hwf.2 e he)

/-- C3 witness: the two-insert scenario satisfies the invariant. -/
theorem spans_no_overlap_no_empty_witness :
    letI A : Attrs := ⟨none, Family.SansSerif, Stretch.Normal, Style.Normal, ⟨400⟩,
      ⟨⟨0x3F800000, by norm_num⟩⟩, 0⟩
    letI l : AttrsList := ((AttrsList.new A).add_span ⟨0, 5⟩ A).add_span ⟨3, 8⟩ A
    Reachable l ∧
    (l.spansList.Pairwise (fun a b => Range.overlaps a.1 b.1 = false) ∧
      ∀ e ∈ l.spansList, e.1.start ≠ e.1.stop) :=
  ⟨Reachable.add_span ⟨3, 8⟩ _ (by decide)
      (Reachable.add_span ⟨0, 5⟩ _ (by decide) (Reachable.new _)),
   spans_no_overlap_no_empty _
     (Reachable.add_span ⟨3, 8⟩ _ (by decide)
       (Reachable.add_span ⟨0, 5⟩ _ (by decide) (Reachable.new _)))⟩

/-- C4.  `add_span` with a non-empty range stores the new `(range, value)`
pair as its own entry; coverage outside the range is untouched; and every
other entry of the result is a remainder of a pre-existing entry that does
not overlap the new range. -/
theorem add_span_own_entry (l : AttrsList) (r : Range) (v : Attrs)
    (hreach : Reachable l) (hr : r.start < r.stop) :
    ((r, AttrsOwned.new v) ∈ (l.add_span r v).spansList) ∧
    (∀ p, p < r.start ∨ r.stop ≤ p →
      RangeMap.get (l.add_span r v).spans p = RangeMap.get l.spans p) ∧
    (∀ e' ∈ (l.add_span r v).spansList, e' = (r, AttrsOwned.new v) ∨
      ∃ e ∈ l.spansList, e'.2 = e.2 ∧ e.1.start ≤ e'.1.start ∧
        e'.1.stop ≤ e.1.stop ∧ Range.overlaps r e'.1 = false) := by
  have hwf := reachable_wf hreach
  have hne : ¬ r.start = r.stop := by omega
  have hadd : (l.add_span r v).spans = RangeMap.insert l.spans r (AttrsOwned.new v) := by
    rw [AttrsList.add_span, if_neg hne]
  refine ⟨?_, ?_, ?_⟩
  · show (r, AttrsOwned.new v) ∈ (l.add_span r v).spans
    rw [hadd]
    exact RangeMap.mem_insert.mpr (Or.inl rfl)
  · intro p hp
    rw [hadd, RangeMap.get_insert hwf hr, if_neg (by omega)]
  · intro e' he'
    rw [AttrsList.spansList, hadd] at he'
    rcases RangeMap.mem_insert.mp he' with h | ⟨e, he, htrim⟩
    · exact Or.inl h
    · obtain ⟨hval, hst, hsp, _, hov⟩ := RangeMap.trimEntry_mem (hwf.2 e he) htrim
      exact Or.inr ⟨e, he, hval, hst, hsp, hov⟩

/-- C4 witness: inserting `3..8` over `0..5` keeps `(3..8, C)` as its own
entry, leaves offset 2 covered as before, and trims `0..5` to `0..3`. -/
theorem add_span_own_entry_witness :
    letI A : Attrs := ⟨none, Family.SansSerif, Stretch.Normal, Style.Normal, ⟨400⟩,
      ⟨⟨0x3F800000, by norm_num⟩⟩, 0⟩
    letI C : Attrs := { A with metadata := 2 }
    letI l : AttrsList := (AttrsList.new A).add_span ⟨0, 5⟩ A
    Reachable l ∧ (3 : Nat) < 8 ∧
    (((⟨3, 8⟩, AttrsOwned.new C) ∈ (l.add_span ⟨3, 8⟩ C).spansList) ∧
     (∀ p, p < 3 ∨ 8 ≤ p →
       RangeMap.get (l.add_span ⟨3, 8⟩ C).spans p = RangeMap.get l.spans p) ∧
     (∀ e' ∈ (l.add_span ⟨3, 8⟩ C).spansList, e' = (⟨3, 8⟩, AttrsOwned.new C) ∨
       ∃ e ∈ l.spansList, e'.2 = e.2 ∧ e.1.start ≤ e'.1.start ∧
         e'.1.stop ≤ e.1.stop ∧ Range.overlaps ⟨3, 8⟩ e'.1 = false)) :=
  ⟨Reachable.add_span ⟨0, 5⟩ _ (by decide) (Reachable.new _),
   by decide,
   add_span_own_entry _ ⟨3, 8⟩ _
     (Reachable.add_span ⟨0, 5⟩ _ (by decide) (Reachable.new _)) (by decide)⟩

/-- C9.  On every reachable list, every lookup performed inside `split_off`
succeeds, so the `"attrs span not found"` expectation never fires: the
operation always returns a result (`none` in the model marks that panic
path). -/
theorem split_off_never_panics (l : AttrsList) (hreach : Reachable l)
    (index : Nat) : (l.split_off index).isSome = true := by
  obtain ⟨a, b, hs, _⟩ := split_off_spec l index (reachable_wf hreach)
  rw [hs]
  rfl

/-- C9 witness: splitting the two-insert scenario at 5 returns a result. -/
theorem split_off_never_panics_witness :
    letI A : Attrs := ⟨none, Family.SansSerif, Stretch.Normal, Style.Normal, ⟨400⟩,
      ⟨⟨0x3F800000, by norm_num⟩⟩, 0⟩
    letI l : AttrsList := ((AttrsList.new A).add_span ⟨0, 5⟩ A).add_span ⟨3, 8⟩ A
    Reachable l ∧ (l.split_off 5).isSome = true :=
  ⟨Reachable.add_span ⟨3, 8⟩ _ (by decide)
      (Reachable.add_span ⟨0, 5⟩ _ (by decide) (Reachable.new _)),
   split_off_never_panics _
     (Reachable.add_span ⟨3, 8⟩ _ (by decide)
       (Reachable.add_span ⟨0, 5⟩ _ (by decide) (Reachable.new _))) 5⟩

end CosmicText
